import Mathlib

/-!
Verification of the process-resolution core of `cosmic-task-monitor`
(`src/app/process.rs`, with a near-identical copy in `src/app.rs`).

Strings are modelled as `List Char` (the source uses byte indices into UTF-8
strings only at ASCII positions, where byte and character indices coincide).
Rust's `str::to_lowercase` is modelled by ASCII lowercasing, which is exact for
`to_ascii_lowercase` / `eq_ignore_ascii_case` and agrees with `to_lowercase`
on ASCII data.  `f32` quantities (CPU percentages) are modelled as exact
rationals; the only float operations involved (`+`, `/`, `clamp`,
`partial_cmp`) are modelled exactly, which is faithful for finite inputs.
-/

namespace CTM

/-- The ASCII apostrophe character. -/
def squote : Char := Char.ofNat 39

/-- Characters with the Unicode `White_Space` property, as tested by Rust's
`char::is_whitespace` (used by `str::trim` and `str::split_whitespace`). -/
def isRustWhitespace (c : Char) : Bool :=
  c.toNat = 0x09 || c.toNat = 0x0A || c.toNat = 0x0B || c.toNat = 0x0C ||
  c.toNat = 0x0D || c.toNat = 0x20 || c.toNat = 0x85 || c.toNat = 0xA0 ||
  c.toNat = 0x1680 || (0x2000 ≤ c.toNat && c.toNat ≤ 0x200A) ||
  c.toNat = 0x2028 || c.toNat = 0x2029 || c.toNat = 0x202F ||
  c.toNat = 0x205F || c.toNat = 0x3000

/-- ASCII lowercasing of a single character, the model of Rust's
`char/str::to_ascii_lowercase` and (on ASCII data) of `str::to_lowercase`. -/
def asciiToLower (c : Char) : Char :=
  if 65 ≤ c.toNat ∧ c.toNat ≤ 90 then Char.ofNat (c.toNat + 32) else c

/-- Drop from both ends of `s` every character satisfying `p`
(Rust `str::trim_matches` with a character pattern, and `str::trim`). -/
def trimEnds (p : Char → Bool) (s : List Char) : List Char :=
  ((s.dropWhile p).reverse.dropWhile p).reverse

/-- Rust `str::trim`: strip leading and trailing whitespace. -/
def rustTrim (s : List Char) : List Char := trimEnds isRustWhitespace s

/-- Rust `str::trim_matches(c)` for a single character `c`. -/
def trimMatchesChar (c : Char) (s : List Char) : List Char :=
  trimEnds (fun d => d == c) s

/-- Character replacement inside `normalize_exec_key`:
`replace([' ', '_', '.'], "-")` acts characterwise. -/
def replaceSepDash (c : Char) : Char :=
  if c = ' ' || c = '_' || c = '.' then '-' else c

/-- Function `normalize_exec_key` (src/app/process.rs:1104): trim, replace
spaces/underscores/dots with hyphens, lowercase, trim hyphens; `none` when the
result is empty. -/
def normalize_exec_key (value : List Char) : Option (List Char) :=
  let normalized :=
    trimMatchesChar '-' (((rustTrim value).map replaceSepDash).map asciiToLower)
  if normalized = [] then none else some normalized

/-- Separator characters skipped between a Steam marker and its digit run
(src/app/process.rs:392): space, `=`, `:`, `/`, `-`, double quote, quote. -/
def isSepChar (c : Char) : Bool :=
  c == ' ' || c == '=' || c == ':' || c == '/' || c == '-' || c == '"' || c == squote

/-- Body of `extract_decimal_from` (src/app/process.rs:385) acting on the
suffix of the string that starts at the given index: skip separator
characters, stop at the first digit (any other character fails), take the
maximal digit run, reject an empty run and the literal `"0"`. -/
def skipSepsTakeDigits : List Char → Option (List Char)
  | [] => none
  | c :: rest =>
    if c.isDigit then
      let run := (c :: rest).takeWhile Char.isDigit
      if run = ['0'] then none else some run
    else if isSepChar c then skipSepsTakeDigits rest
    else none

/-- Function `extract_decimal_from` (src/app/process.rs:385).  The source walks
byte indices from `index`; positions reached are always ASCII, and the final
slice `value[start..index]` is a digit run, so the character-suffix view is
exact and the slicing cannot panic. -/
def extract_decimal_from (value : List Char) (index : Nat) : Option (List Char) :=
  skipSepsTakeDigits (value.drop index)

/-- Model of Rust `str::find` for a literal pattern: index of the first
occurrence of `needle` in `hay` (`some 0` for an empty needle). -/
def findSub : List Char → List Char → Option Nat
  | [], needle => if needle = [] then some 0 else none
  | c :: rest, needle =>
    if needle.isPrefixOf (c :: rest) then some 0
    else (findSub rest needle).map (· + 1)

/-- Search loop of `extract_decimal_after_marker` (src/app/process.rs:373).
Each iteration advances `offset` by at least `marker.length ≥ 1`, and the loop
runs only while `offset ≤ lower.length`, so a fuel of `lower.length + 1`
never runs out before `findSub` fails; the fuel only makes the recursion
structural. -/
def edamAux (orig lower marker : List Char) : Nat → Nat → Option (List Char)
  | _, 0 => none
  | offset, fuel + 1 =>
    match findSub (lower.drop offset) marker with
    | none => none
    | some found =>
      let start := offset + found + marker.length
      match extract_decimal_from orig start with
      | some id => some id
      | none => edamAux orig lower marker start fuel

/-- Function `extract_decimal_after_marker` (src/app/process.rs:373). -/
def extract_decimal_after_marker (orig lower marker : List Char) : Option (List Char) :=
  edamAux orig lower marker 0 (lower.length + 1)

/-- Marker list of `extract_steam_app_id` (src/app/process.rs:364). -/
def steamMarkers : List (List Char) :=
  ["appid=".toList, "gameid=".toList, "-gameid".toList, "steam_app_".toList,
   "rungameid/".toList]

/-- Function `extract_steam_app_id` (src/app/process.rs:358). -/
def extract_steam_app_id (value : List Char) : Option (List Char) :=
  if rustTrim value = [] then none
  else
    steamMarkers.findSome? (fun marker =>
      extract_decimal_after_marker value (value.map asciiToLower) marker)

/-- Checked variant of the `edamAux` loop for claim C8: the Rust source slices
`lower[offset..]`, which panics when `offset > lower.len()`.  This variant
signals that panic as `Except.error ()` instead of silently slicing. -/
def edamCheckedAux (orig lower marker : List Char) :
    Nat → Nat → Except Unit (Option (List Char))
  | offset, fuel =>
    if offset > lower.length then .error ()
    else
      match fuel with
      | 0 => .ok none
      | fuel + 1 =>
        match findSub (lower.drop offset) marker with
        | none => .ok none
        | some found =>
          let start := offset + found + marker.length
          match extract_decimal_from orig start with
          | some id => .ok (some id)
          | none => edamCheckedAux orig lower marker start fuel

/-- One marker step of the checked extractor: earlier panics and earlier hits
are kept, otherwise the checked marker search runs. -/
def checkedStep (value lower : List Char) (acc : Except Unit (Option (List Char)))
    (marker : List Char) : Except Unit (Option (List Char)) :=
  match acc with
  | .error e => .error e
  | .ok (some id) => .ok (some id)
  | .ok none => edamCheckedAux value lower marker 0 (lower.length + 1)

/-- Checked variant of `extract_steam_app_id` propagating the would-be slicing
panic of `extract_decimal_after_marker` (claim C8). -/
def extract_steam_app_id_checked (value : List Char) :
    Except Unit (Option (List Char)) :=
  if rustTrim value = [] then .ok none
  else
    steamMarkers.foldl (checkedStep value (value.map asciiToLower)) (.ok none)

/-- Split a character list at every character satisfying `p`, keeping empty
segments (model of Rust `str::split` with a `char` pattern); the result is
always non-empty. -/
def splitOnPred (p : Char → Bool) : List Char → List (List Char)
  | [] => [[]]
  | c :: rest =>
    if p c then [] :: splitOnPred p rest
    else
      match splitOnPred p rest with
      | [] => [[c]]
      | h :: t => (c :: h) :: t

/-- Split at every occurrence of the character `sep` (Rust `str::split(sep)`). -/
def splitOnChar (sep : Char) (s : List Char) : List (List Char) :=
  splitOnPred (fun c => c == sep) s

/-- Rust `str::split_whitespace`: split on whitespace runs, no empty tokens. -/
def splitWhitespace (s : List Char) : List (List Char) :=
  (splitOnPred isRustWhitespace s).filter (fun t => !(t == []))

/-- Strip one trailing carriage return (for lines terminated by `\n`). -/
def stripTrailingCr (l : List Char) : List Char :=
  match l.getLast? with
  | some c => if c = '\r' then l.dropLast else l
  | none => l

/-- Model of Rust `str::lines`: split on `\n`, strip a `\r` before each `\n`,
and drop the empty segment produced by a trailing line ending. -/
def rustLines (s : List Char) : List (List Char) :=
  let parts := splitOnChar '\n' s
  let terminated := parts.dropLast.map stripTrailingCr
  match parts.getLast? with
  | some last => if last = [] then terminated else terminated ++ [last]
  | none => terminated

/-- Function `quoted_kv` (src/app/process.rs:978): split the line on `"`,
take the second and fourth fragments as key and value, trim both, reject an
empty key. -/
def quoted_kv (line : List Char) : Option (List Char × List Char) :=
  match splitOnChar '"' line with
  | _ :: k :: _ :: v :: _ =>
    let key := rustTrim k
    if key = [] then none else some (key, rustTrim v)
  | _ => none

/-- Model of Rust `str::eq_ignore_ascii_case`: same length and characterwise
equality after ASCII lowercasing. -/
def eqIgnoreAsciiCase : List Char → List Char → Bool
  | [], [] => true
  | a :: xs, b :: ys => asciiToLower a == asciiToLower b && eqIgnoreAsciiCase xs ys
  | _, _ => false

/-- Loop body of `acf_value` (src/app/process.rs:966) over the line list:
value of the first line whose quoted key equals `key` ignoring ASCII case. -/
def acf_value_lines : List (List Char) → List Char → Option (List Char)
  | [], _ => none
  | line :: rest, key =>
    match quoted_kv line with
    | some (k, v) => if eqIgnoreAsciiCase k key then some v else acf_value_lines rest key
    | none => acf_value_lines rest key

/-- Function `acf_value` (src/app/process.rs:966). -/
def acf_value (content key : List Char) : Option (List Char) :=
  acf_value_lines (rustLines content) key

/-- Backslash unescaping in `steam_library_roots_from_vdf`
(src/app/process.rs:948): `replace("\\\\", "\\")`, i.e. each pair of
backslashes becomes one, scanning left to right. -/
def unescapeBackslashes : List Char → List Char
  | '\\' :: '\\' :: rest => '\\' :: unescapeBackslashes rest
  | c :: rest => c :: unescapeBackslashes rest
  | [] => []

/-- Loop body of `steam_library_roots_from_vdf` (src/app/process.rs:940):
push the unescaped value when the line is a quoted key/value pair whose key
is exactly `"path"`, otherwise continue. -/
def vdfStep (roots : List (List Char)) (line : List Char) : List (List Char) :=
  match quoted_kv line with
  | some (k, v) =>
    if k = "path".toList then roots ++ [unescapeBackslashes v] else roots
  | none => roots

/-- Loop of `steam_library_roots_from_vdf` (src/app/process.rs:938) over the
line list. -/
def vdf_roots_lines (ls : List (List Char)) : List (List Char) :=
  ls.foldl vdfStep []

/-- Function `steam_library_roots_from_vdf` (src/app/process.rs:938); the
resulting `PathBuf`s are modelled by their textual content. -/
def steam_library_roots_from_vdf (content : List Char) : List (List Char) :=
  vdf_roots_lines (rustLines content)

/-- Modelled from the spec's words (claim C5), for comparison with
`vdf_roots_lines`: the unescaped value of a quoted `"path"` key/value line,
`none` for any other line. -/
def vdfPathLineValue (line : List Char) : Option (List Char) :=
  match quoted_kv line with
  | some (k, v) => if k = "path".toList then some (unescapeBackslashes v) else none
  | none => none

/-- Model of `Path::file_name` on Unix paths: last `/`-separated component
after dropping empty and `.` components; `none` when that component is `..`
or when nothing remains. -/
def pathComponents (t : List Char) : List (List Char) :=
  (splitOnChar '/' t).filter (fun comp => !(comp == []) && !(comp == ['.']))

/-- Model of `Path::file_name` (see `pathComponents`). -/
def pathFileName (t : List Char) : Option (List Char) :=
  match (pathComponents t).getLast? with
  | none => none
  | some comp => if comp = ['.', '.'] then none else some comp

/-- Stem of a file name, per `Path::file_stem`: the portion before the last
dot, except that a dot at position zero (hidden files) does not count. -/
def stemOf (name : List Char) : List Char :=
  match name.reverse.dropWhile (fun c => !(c == '.')) with
  | [] => name
  | _ :: restR => if restR = [] then name else restR.reverse

/-- Model of `Path::file_stem`. -/
def rustFileStem (t : List Char) : Option (List Char) :=
  (pathFileName t).map stemOf

/-- Rust `str::strip_suffix`: remove `suffix` once from the end, if present. -/
def stripSuffixOnce (s suffix : List Char) : Option (List Char) :=
  if suffix.isSuffixOf s then some (s.take (s.length - suffix.length)) else none

/-- Fuelled loop of Rust `str::trim_end_matches(suffix)`.  Every iteration
shortens the string by `suffix.length ≥ 1`, so a fuel equal to the initial
length never runs out while the suffix still matches; the fuel only makes the
recursion structural. -/
def trimEndGreedyAux (suffix : List Char) : Nat → List Char → List Char
  | 0, s => s
  | fuel + 1, s =>
    if suffix ≠ [] ∧ suffix.isSuffixOf s then
      trimEndGreedyAux suffix fuel (s.take (s.length - suffix.length))
    else s

/-- Rust `str::trim_end_matches(suffix)`: remove every trailing repetition of
`suffix`. -/
def trimEndMatchesGreedy (s suffix : List Char) : List Char :=
  trimEndGreedyAux suffix s.length s

/-- Lowercased final path component of a token, the `command_stem` closure in
`extract_match_token` (src/app/process.rs:1135). -/
def commandStem (t : List Char) : List Char :=
  ((pathFileName t).getD t).map asciiToLower

/-- Shell-like / indirection commands rejected by `extract_match_token`
(src/app/process.rs:1185). -/
def shellLikeStems : List (List Char) :=
  ["steam".toList, "gtk-launch".toList, "xdg-open".toList, "sh".toList,
   "bash".toList, "zsh".toList, "fish".toList]

/-- True when the token starts with `-` (Rust `starts_with('-')`). -/
def startsWithDash (t : List Char) : Bool :=
  match t with
  | [] => false
  | c :: _ => c == '-'

/-- Loop skipping `KEY=VALUE` and flag tokens after a leading `env`
(src/app/process.rs:1145). -/
def skipEnvArgs : List (List Char) → List (List Char)
  | [] => []
  | t :: rest =>
    if t.contains '=' || startsWithDash t then skipEnvArgs rest else t :: rest

/-- Flatpak `run` flags that take a separate value (src/app/process.rs:1171). -/
def flatpakValueFlags : List (List Char) :=
  ["--arch".toList, "--branch".toList, "--command".toList,
   "--file-forwarding".toList]

/-- Loop skipping flags after `flatpak run` (src/app/process.rs:1162). -/
def skipFlatpakFlags : List (List Char) → List (List Char)
  | [] => []
  | flag :: rest =>
    if startsWithDash flag then
      if flatpakValueFlags.contains flag then
        match rest with
        | [] => []
        | v :: rest2 =>
          if startsWithDash v then skipFlatpakFlags (v :: rest2)
          else skipFlatpakFlags rest2
      else skipFlatpakFlags rest
    else flag :: rest

/-- Function `extract_match_token` (src/app/process.rs:1129): split on
whitespace, skip a leading `env` and its arguments, resolve `flatpak run`
wrappers, reject shell-like indirection commands. -/
def extract_match_token (value : List Char) : Option (List Char) :=
  match splitWhitespace value with
  | [] => none
  | t0 :: rest =>
    let afterEnv : Option (List Char × List (List Char)) :=
      if commandStem t0 = "env".toList then
        match skipEnvArgs rest with
        | [] => none
        | t :: r => some (t, r)
      else some (t0, rest)
    match afterEnv with
    | none => none
    | some (tok, rest2) =>
      let flatpakTarget : Option (List Char) :=
        if commandStem tok = "flatpak".toList then
          match rest2 with
          | r0 :: r1 =>
            if commandStem r0 = "run".toList then
              match skipFlatpakFlags r1 with
              | [] => none
              | target :: _ => some target
            else none
          | [] => none
        else none
      match flatpakTarget with
      | some target => some target
      | none =>
        if shellLikeStems.contains (commandStem tok) then none
        else some tok

/-- Token-reduction pipeline shared by `exec_candidate_keys`
(src/app/process.rs:1053): match token (or trimmed input), strip quoting,
strip a `.desktop` suffix, reduce to the file stem. -/
def execTokenOf (value : List Char) : List Char :=
  let token := (extract_match_token value).getD (rustTrim value)
  let token := trimMatchesChar squote (trimMatchesChar '"' token)
  let token := (stripSuffixOnce token ".desktop".toList).getD token
  ((rustFileStem token).or (pathFileName token)).getD token

/-- Channel suffixes stripped from an alias (src/app/process.rs:1073). -/
def channelSuffixes : List (List Char) :=
  ["-stable".toList, "-beta".toList, "-dev".toList, "-bin".toList]

/-- Role suffixes stripped from an alias (src/app/process.rs:1078). -/
def roleSuffixes : List (List Char) :=
  ["-browser".toList, "-desktop".toList, "-applet".toList]

/-- One iteration of the alias-stripping loops: if the alias ends with the
suffix, remove all trailing repetitions of it (`trim_end_matches`). -/
def stripSuffixStep (a suffix : List Char) : List Char :=
  if suffix.isSuffixOf a then trimEndMatchesGreedy a suffix else a

/-- Alias produced from a normalized key by the two suffix-stripping loops of
`exec_candidate_keys`: channel suffixes first, then role suffixes. -/
def greedyAlias (normalized : List Char) : List Char :=
  roleSuffixes.foldl stripSuffixStep (channelSuffixes.foldl stripSuffixStep normalized)

/-- Function `exec_candidate_keys` (src/app/process.rs:1053): the normalized
primary key plus, when distinct and non-empty, the suffix-stripped alias. -/
def exec_candidate_keys (value : List Char) : List (List Char) :=
  match normalize_exec_key (execTokenOf value) with
  | none => []
  | some normalized =>
    if greedyAlias normalized ≠ [] ∧ greedyAlias normalized ≠ normalized then
      [normalized, greedyAlias normalized]
    else [normalized]

/-- Modelled from the spec's words (claim C6): the alias that strips each
known suffix at most once (`strip_suffix`), channel suffixes then role
suffixes, in order. -/
def onceAlias (normalized : List Char) : List Char :=
  roleSuffixes.foldl (fun a suffix => (stripSuffixOnce a suffix).getD a)
    (channelSuffixes.foldl (fun a suffix => (stripSuffixOnce a suffix).getD a) normalized)

/-- Modelled from the spec's words (claim C6), for comparison with
`exec_candidate_keys`: candidate keys with the once-each alias. -/
def execCandidateKeysOnceSpec (value : List Char) : List (List Char) :=
  match normalize_exec_key (execTokenOf value) with
  | none => []
  | some normalized =>
    if onceAlias normalized ≠ [] ∧ onceAlias normalized ≠ normalized then
      [normalized, onceAlias normalized]
    else [normalized]

/-- Sort columns (src/app.rs:65). -/
inductive SortColumn where
  | name
  | cpu
  | pid
  | ram
  | threads
deriving DecidableEq

/-- Sort directions (src/app.rs:74). -/
inductive SortDirection where
  | asc
  | desc
deriving DecidableEq

/-- Sort state (src/app.rs:80). -/
structure SortState where
  column : SortColumn
  direction : SortDirection
deriving DecidableEq

/-- Aggregated per-application row (struct `ProcessEntry`, src/app.rs:40 and
the `app_id`-carrying variant used in src/app/process.rs).  The icon handle, a
UI value, is omitted; it takes no part in aggregation or sorting. -/
structure ProcessEntry where
  app_id : List Char
  display_name : List Char
  name : List Char
  pid : Nat
  cpu_percent : ℚ
  rss_bytes : Nat
  threads : Nat
deriving DecidableEq

/-- Three-way comparison on naturals (model of `Ord::cmp` on `u32`/`u64`). -/
def cmpNat (a b : Nat) : Ordering :=
  if a < b then .lt else if b < a then .gt else .eq

/-- Three-way comparison on rationals: model of `f32::partial_cmp` followed by
`unwrap_or(Ordering::Equal)`, exact for non-NaN floats. -/
def cmpQ (a b : ℚ) : Ordering :=
  if a < b then .lt else if b < a then .gt else .eq

/-- Lexicographic comparison of character lists by code point, the model of
`Ord::cmp` on Rust `String` (UTF-8 byte order equals code-point order). -/
def cmpLex : List Char → List Char → Ordering
  | [], [] => .eq
  | [], _ :: _ => .lt
  | _ :: _, [] => .gt
  | a :: xs, b :: ys => (cmpNat a.toNat b.toNat).then (cmpLex xs ys)

/-- Lowercasing of a whole string (ASCII model of `str::to_lowercase`). -/
def toLowerStr (s : List Char) : List Char := s.map asciiToLower

/-- Primary comparison of `sort_process_entries` (src/app/process.rs:1212)
for the selected column, before the direction is applied. -/
def primaryOrd (col : SortColumn) (a b : ProcessEntry) : Ordering :=
  match col with
  | .name => (cmpLex (toLowerStr a.name) (toLowerStr b.name)).then (cmpLex a.name b.name)
  | .cpu => cmpQ a.cpu_percent b.cpu_percent
  | .pid => cmpNat a.pid b.pid
  | .ram => cmpNat a.rss_bytes b.rss_bytes
  | .threads => cmpNat a.threads b.threads

/-- Comparator of `sort_process_entries` (src/app/process.rs:1210): primary
column in the selected direction, then RAM descending, CPU descending, pid
ascending. -/
def entryCmp (st : SortState) (a b : ProcessEntry) : Ordering :=
  let primary := primaryOrd st.column a b
  let primary :=
    match st.direction with
    | .asc => primary
    | .desc => primary.swap
  ((primary.then (cmpNat b.rss_bytes a.rss_bytes)).then
      (cmpQ b.cpu_percent a.cpu_percent)).then
    (cmpNat a.pid b.pid)

/-- Modelled from the spec's words (claim C7), for comparison with `entryCmp`:
the fixed secondary order RAM descending, then CPU descending, then pid
ascending. -/
def specTiebreak (a b : ProcessEntry) : Ordering :=
  ((cmpNat b.rss_bytes a.rss_bytes).then (cmpQ b.cpu_percent a.cpu_percent)).then
    (cmpNat a.pid b.pid)

/-- Per-process data consumed by the aggregation loop of `refresh_processes`
(src/app/process.rs:115): pid, `cpu_usage()`, `memory()`, and the size of the
`tasks()` set when present. -/
structure ProcSample where
  pid : Nat
  cpu_usage : ℚ
  memory : Nat
  tasks : Option Nat
deriving DecidableEq

/-- Accumulator of the aggregation loop (struct `Aggregate`,
src/app/process.rs:59; icon handle omitted as in `ProcessEntry`). -/
structure Aggregate where
  name : List Char
  pid : Nat
  cpu_percent : ℚ
  rss_bytes : Nat
  threads : Nat
deriving DecidableEq

/-- Model of Rust `f32::clamp(lo, hi)` for non-NaN values. -/
def rustClamp (x lo hi : ℚ) : ℚ :=
  if x < lo then lo else if x > hi then hi else x

/-- One eligible process resolved to an application identity.  Eligibility
filtering and identity resolution (desktop registry, Steam, exclusion list)
read the OS and the filesystem and are abstracted: the aggregation loop is
verified for every possible resolution outcome. -/
structure ResolvedProcess where
  app_id : List Char
  app_name : List Char
  sample : ProcSample
deriving DecidableEq

/-- Per-process update of an aggregate (src/app/process.rs:123): add the
core-normalized, per-process clamped CPU share, keep the minimum pid, the
maximum RSS, and add the task count (or 1 when unknown). -/
def applyProcess (cores : ℚ) (p : ProcSample) (a : Aggregate) : Aggregate :=
  { a with
    cpu_percent := a.cpu_percent + rustClamp (p.cpu_usage / cores) 0 100
    pid := min a.pid p.pid
    rss_bytes := max a.rss_bytes p.memory
    threads := a.threads + p.tasks.getD 1 }

/-- Fresh aggregate inserted on first sight of an application id
(src/app/process.rs:115): pid and RSS seeded from the process, the remaining
numeric fields defaulted to zero. -/
def freshAggregate (name : List Char) (p : ProcSample) : Aggregate :=
  { name := name, pid := p.pid, cpu_percent := 0, rss_bytes := p.memory, threads := 0 }

/-- Model of `groups.entry(app_id).or_insert_with(..)` followed by the field
updates, on an association list keyed by application id. -/
def updateGroups (cores : ℚ) (appId nm : List Char) (p : ProcSample) :
    List (List Char × Aggregate) → List (List Char × Aggregate)
  | [] => [(appId, applyProcess cores p (freshAggregate nm p))]
  | (k, a) :: rest =>
    if k = appId then (k, applyProcess cores p a) :: rest
    else (k, a) :: updateGroups cores appId nm p rest

/-- Grouping loop of `refresh_processes`: fold every resolved process into
the per-application aggregates. -/
def buildGroups (cores : ℚ) (procs : List ResolvedProcess) :
    List (List Char × Aggregate) :=
  procs.foldl (fun gs rp => updateGroups cores rp.app_id rp.app_name rp.sample gs) []

/-- Final per-entry construction of `refresh_processes`
(src/app/process.rs:129): clamp the CPU sum to `[0,100]` and floor the thread
count at 1. -/
def finalizeEntry (kv : List Char × Aggregate) : ProcessEntry :=
  { app_id := kv.1
    display_name := kv.2.name
    name := kv.2.name
    pid := kv.2.pid
    cpu_percent := rustClamp kv.2.cpu_percent 0 100
    rss_bytes := kv.2.rss_bytes
    threads := max kv.2.threads 1 }

/-- Entries produced by one refresh tick (src/app/process.rs:69), for a given
CPU count and any list of resolved eligible processes; `cores` is
`cpus().len().max(1)`. -/
def refresh_process_entries (nCpus : Nat) (procs : List ResolvedProcess) :
    List ProcessEntry :=
  (buildGroups ((max nCpus 1 : Nat) : ℚ) procs).map finalizeEntry

/-- Observable events of the restart sequence (claim C2): signal delivery,
one liveness poll of `is_app_id_running`, one relaunch attempt
(`launch_from_candidates`). -/
inductive RestartEvent where
  | sigTerm
  | sigKill
  | poll (running : Bool)
  | launchAttempt (ok : Bool)
deriving DecidableEq

/-- Environment of one restart run: what each liveness poll observes after
TERM and after KILL, the outcomes of the two relaunch attempts, and how many
poll iterations each real-time deadline (3 s and 1 s at 100 ms) admits. -/
structure RestartEnv where
  runningAfterTerm : Nat → Bool
  runningAfterKill : Nat → Bool
  launchOk : Bool
  launch2Ok : Bool
  budgetTerm : Nat
  budgetKill : Nat

/-- Poll loop of `wait_for_app_exit` (src/app/process.rs:554): while the
deadline admits another iteration, observe; stop as soon as the application
is no longer seen running. -/
def waitTrace (obs : Nat → Bool) : Nat → Nat → List RestartEvent
  | 0, _ => []
  | budget + 1, i =>
    RestartEvent.poll (obs i) :: (if obs i then waitTrace obs budget (i + 1) else [])

/-- Event trace of `restart_selected_application` (src/app/process.rs:426):
TERM to all processes of the id, poll up to 3 s, attempt relaunch; on
failure KILL, poll up to 1 s, retry relaunch once (result ignored). -/
def restartTrace (env : RestartEnv) : List RestartEvent :=
  RestartEvent.sigTerm :: waitTrace env.runningAfterTerm env.budgetTerm 0 ++
    RestartEvent.launchAttempt env.launchOk ::
      (if env.launchOk then []
       else
         RestartEvent.sigKill :: waitTrace env.runningAfterKill env.budgetKill 0 ++
           [RestartEvent.launchAttempt env.launch2Ok])

/-- Observation of the most recent poll strictly before position `i`. -/
def lastPollBefore (t : List RestartEvent) (i : Nat) : Option Bool :=
  ((t.take i).filterMap
    (fun e => match e with | RestartEvent.poll r => some r | _ => none)).getLast?

/-- Environment in which the application never exits: every poll observes it
running, the deadline admits one poll, the first relaunch succeeds. -/
def stuckEnv : RestartEnv :=
  { runningAfterTerm := fun _ => true
    runningAfterKill := fun _ => true
    launchOk := true
    launch2Ok := true
    budgetTerm := 1
    budgetKill := 1 }

/-- Per-process facts consumed by `steam_app_id_for_process`
(src/app/process.rs:293): the parent pid and the result of
`extract_steam_app_id_from_process` on this process. -/
structure ProcRec where
  parent : Option Nat
  steamId : Option (List Char)

/-- Parent-chain walk of `steam_app_id_for_process` (src/app/process.rs:305),
returning the id found (if any) and the list of ancestor pids on which id
extraction was attempted.  The fuel counts the remaining depth: the source
breaks at `depth >= 12` with `depth` starting at 0, so the walk starts with
fuel 12, and `fuel = 12 - depth` throughout. -/
def walkAux (table : Nat → Option ProcRec) :
    Nat → List Nat → Option Nat → Option (List Char) × List Nat
  | _, _, none => (none, [])
  | 0, _, some _ => (none, [])
  | fuel + 1, visited, some ppid =>
    if ppid ∈ visited then (none, [])
    else
      match table ppid with
      | none => (none, [])
      | some pr =>
        match pr.steamId with
        | some id => (some id, [ppid])
        | none =>
          ((walkAux table fuel (ppid :: visited) pr.parent).1,
            ppid :: (walkAux table fuel (ppid :: visited) pr.parent).2)

/-- Function `steam_app_id_for_process` (src/app/process.rs:293): the process
itself first, then the bounded, cycle-guarded parent walk. -/
def steam_app_id_for_process (table : Nat → Option ProcRec) (pr : ProcRec) :
    Option (List Char) :=
  match pr.steamId with
  | some id => some id
  | none => (walkAux table 12 [] pr.parent).1

/-- Ancestor pids on which `steam_app_id_for_process` attempts id
extraction. -/
def steamWalkTrace (table : Nat → Option ProcRec) (pr : ProcRec) : List Nat :=
  match pr.steamId with
  | some _ => []
  | none => (walkAux table 12 [] pr.parent).2

/-! Character-level facts about the normalization pipeline. -/

theorem toNat_ofNat_valid (m : Nat) (h : m.isValidChar) : (Char.ofNat m).toNat = m := by
  simp only [Char.ofNat, h, dif_pos]
  rfl

theorem charEq_of_toNat {a b : Char} (h : a.toNat = b.toNat) : a = b :=
  Char.eq_of_val_eq (UInt32.ext h)

theorem asciiToLower_toNat (c : Char) :
    (asciiToLower c).toNat =
      if 65 ≤ c.toNat ∧ c.toNat ≤ 90 then c.toNat + 32 else c.toNat := by
  unfold asciiToLower
  by_cases hc : 65 ≤ c.toNat ∧ c.toNat ≤ 90
  · have hv : (c.toNat + 32).isValidChar := Or.inl (by omega)
    rw [if_pos hc, if_pos hc, toNat_ofNat_valid _ hv]
  · rw [if_neg hc, if_neg hc]

theorem asciiToLower_notUpper (c : Char) :
    ¬(65 ≤ (asciiToLower c).toNat ∧ (asciiToLower c).toNat ≤ 90) := by
  have h := asciiToLower_toNat c
  by_cases hc : 65 ≤ c.toNat ∧ c.toNat ≤ 90
  · rw [if_pos hc] at h; omega
  · rw [if_neg hc] at h; omega

theorem asciiToLower_idem (c : Char) :
    asciiToLower (asciiToLower c) = asciiToLower c := by
  apply charEq_of_toNat
  rw [asciiToLower_toNat (asciiToLower c), if_neg (asciiToLower_notUpper c)]

theorem replaceSepDash_eq_self {c : Char}
    (h32 : c.toNat ≠ 32) (h95 : c.toNat ≠ 95) (h46 : c.toNat ≠ 46) :
    replaceSepDash c = c := by
  have h1 : c ≠ ' ' := fun he => h32 (by rw [he]; rfl)
  have h2 : c ≠ '_' := fun he => h95 (by rw [he]; rfl)
  have h3 : c ≠ '.' := fun he => h46 (by rw [he]; rfl)
  simp [replaceSepDash, h1, h2, h3]

theorem replaceSepDash_toNat_ne (c : Char) :
    (replaceSepDash c).toNat ≠ 32 ∧ (replaceSepDash c).toNat ≠ 95 ∧
      (replaceSepDash c).toNat ≠ 46 := by
  unfold replaceSepDash
  split
  · refine ⟨by decide, by decide, by decide⟩
  · next h =>
    simp only [Bool.or_eq_true, decide_eq_true_eq, not_or] at h
    refine ⟨fun hn => h.1.1 ?_, fun hn => h.1.2 ?_, fun hn => h.2 ?_⟩ <;>
      exact charEq_of_toNat (by rw [hn]; rfl)

theorem pipeChar_replace_fixed (c : Char) :
    replaceSepDash (asciiToLower (replaceSepDash c)) = asciiToLower (replaceSepDash c) := by
  obtain ⟨h32, h95, h46⟩ := replaceSepDash_toNat_ne c
  have ht := asciiToLower_toNat (replaceSepDash c)
  by_cases hc : 65 ≤ (replaceSepDash c).toNat ∧ (replaceSepDash c).toNat ≤ 90
  · rw [if_pos hc] at ht
    exact replaceSepDash_eq_self (by omega) (by omega) (by omega)
  · rw [if_neg hc] at ht
    exact replaceSepDash_eq_self (by omega) (by omega) (by omega)

/-! Facts about `trimEnds` (Rust `trim` / `trim_matches`). -/

theorem head_dropWhile_false {α} (p : α → Bool) (l : List α) (c : α)
    (h : (l.dropWhile p).head? = some c) : p c = false := by
  induction l with
  | nil => simp [List.dropWhile] at h
  | cons a as ih =>
    rw [List.dropWhile_cons] at h
    by_cases hp : p a = true
    · rw [if_pos hp] at h; exact ih h
    · rw [if_neg hp] at h
      simp only [List.head?_cons, Option.some.injEq] at h
      subst h
      exact Bool.not_eq_true _ ▸ hp

theorem dropWhile_eq_self_of_head {α} (p : α → Bool) (l : List α)
    (h : ∀ c, l.head? = some c → p c = false) : l.dropWhile p = l := by
  cases l with
  | nil => rfl
  | cons a as =>
    rw [List.dropWhile_cons, if_neg]
    simp [h a rfl]

theorem trimEnds_head (p : Char → Bool) (l : List Char) (c : Char)
    (h : (trimEnds p l).head? = some c) : p c = false := by
  unfold trimEnds at h
  rw [List.head?_reverse] at h
  have h2 : ((l.dropWhile p).reverse).getLast? = some c := by
    conv_lhs => rw [← List.takeWhile_append_dropWhile (p := p) (l := (l.dropWhile p).reverse)]
    rw [List.getLast?_append, h]
    rfl
  rw [List.getLast?_reverse] at h2
  exact head_dropWhile_false p l c h2

theorem trimEnds_idem (p : Char → Bool) (l : List Char) :
    trimEnds p (trimEnds p l) = trimEnds p l := by
  have h1 : (trimEnds p l).dropWhile p = trimEnds p l :=
    dropWhile_eq_self_of_head p _ (fun c hc => trimEnds_head p l c hc)
  show (((trimEnds p l).dropWhile p).reverse.dropWhile p).reverse = trimEnds p l
  rw [h1]
  have h2 : (trimEnds p l).reverse = (l.dropWhile p).reverse.dropWhile p := by
    simp [trimEnds]
  rw [h2, List.dropWhile_idempotent, ← h2, List.reverse_reverse]

theorem mem_trimEnds {p : Char → Bool} {l : List Char} {c : Char}
    (h : c ∈ trimEnds p l) : c ∈ l := by
  unfold trimEnds at h
  rw [List.mem_reverse] at h
  have h2 := (List.dropWhile_sublist p).subset h
  rw [List.mem_reverse] at h2
  exact (List.dropWhile_sublist p).subset h2

theorem map_eq_self_of_fixed {f : Char → Char} {l : List Char}
    (h : ∀ c ∈ l, f c = c) : l.map f = l := by
  induction l with
  | nil => rfl
  | cons a as ih =>
    rw [List.map_cons, h a (List.mem_cons_self a as),
      ih (fun c hc => h c (List.mem_cons_of_mem a hc))]

/-- C3, counterexample: normalization is not idempotent as claimed.  On input
`"a\t-"` the trailing hyphen is stripped last and exposes a tab, so the first
normalization yields `"a\t"`, which normalizes further to `"a"`. -/
theorem c3_counterexample :
    normalize_exec_key ("a\t-".toList) = some ("a\t".toList) ∧
    normalize_exec_key ("a\t".toList) ≠ some ("a\t".toList) := by
  decide

/-- C3, amended: `normalize_exec_key` is idempotent on every input whose
normalized form carries no leading or trailing whitespace — whenever
`normalize_exec_key s = some k` and `k` is whitespace-trimmed, normalizing `k`
returns `some k` unchanged.  (Unrestricted idempotence fails when stripping
hyphens exposes boundary whitespace other than a space, see the
counterexample.) -/
theorem c3_normalize_idempotent_on_trimmed (s k : List Char)
    (h : normalize_exec_key s = some k) (ht : rustTrim k = k) :
    normalize_exec_key k = some k := by
  simp only [normalize_exec_key] at h
  by_cases hempty :
      trimMatchesChar '-' (((rustTrim s).map replaceSepDash).map asciiToLower) = []
  · rw [if_pos hempty] at h; cases h
  · rw [if_neg hempty] at h
    have hk : trimMatchesChar '-' (((rustTrim s).map replaceSepDash).map asciiToLower) = k :=
      by injection h
    have hkne : k ≠ [] := hk ▸ hempty
    have hfix : ∀ c ∈ k, replaceSepDash c = c ∧ asciiToLower c = c := by
      intro c hc
      rw [← hk] at hc
      have hcL := mem_trimEnds hc
      simp only [List.mem_map] at hcL
      obtain ⟨c0, hc0, rfl⟩ := hcL
      obtain ⟨c1, _, rfl⟩ := hc0
      exact ⟨pipeChar_replace_fixed c1, asciiToLower_idem (replaceSepDash c1)⟩
    have hmapr : k.map replaceSepDash = k :=
      map_eq_self_of_fixed (fun c hc => (hfix c hc).1)
    have hmapl : k.map asciiToLower = k :=
      map_eq_self_of_fixed (fun c hc => (hfix c hc).2)
    have htrim : trimMatchesChar '-' k = k := by
      rw [← hk]
      exact trimEnds_idem _ _
    show (if trimMatchesChar '-' (((rustTrim k).map replaceSepDash).map asciiToLower) = []
      then none
      else some (trimMatchesChar '-' (((rustTrim k).map replaceSepDash).map asciiToLower)))
        = some k
    rw [ht, hmapr, hmapl, htrim, if_neg hkne]

/-- C3, witness: the amended idempotence applied to the concrete input
`"Code - OSS"`, whose normalized key `"code---oss"` renormalizes to itself. -/
theorem c3_witness :
    normalize_exec_key ("Code - OSS".toList) = some ("code---oss".toList) ∧
    normalize_exec_key ("code---oss".toList) = some ("code---oss".toList) :=
  ⟨by decide,
    c3_normalize_idempotent_on_trimmed ("Code - OSS".toList) ("code---oss".toList)
      (by decide) (by decide)⟩

/-! Facts about the Steam id digit-run extractor. -/

theorem skipSepsTakeDigits_spec (l run : List Char)
    (h : skipSepsTakeDigits l = some run) :
    run ≠ [] ∧ run.all Char.isDigit = true ∧ run ≠ ['0'] := by
  induction l with
  | nil => simp [skipSepsTakeDigits] at h
  | cons c rest ih =>
    unfold skipSepsTakeDigits at h
    by_cases hd : c.isDigit = true
    · rw [if_pos hd] at h
      by_cases h0 : (c :: rest).takeWhile Char.isDigit = ['0']
      · rw [if_pos h0] at h; cases h
      · rw [if_neg h0] at h
        injection h with h
        subst h
        refine ⟨?_, List.all_takeWhile, h0⟩
        rw [List.takeWhile_cons, if_pos hd]
        simp
    · rw [if_neg hd] at h
      by_cases hs : isSepChar c = true
      · rw [if_pos hs] at h; exact ih h
      · rw [if_neg hs] at h; cases h

theorem findSub_bound (hay needle : List Char) (i : Nat)
    (h : findSub hay needle = some i) : i + needle.length ≤ hay.length := by
  induction hay generalizing i with
  | nil =>
    unfold findSub at h
    by_cases hn : needle = []
    · rw [if_pos hn] at h
      injection h with h
      subst h
      simp [hn]
    · rw [if_neg hn] at h; cases h
  | cons c rest ih =>
    unfold findSub at h
    by_cases hp : needle.isPrefixOf (c :: rest) = true
    · rw [if_pos hp] at h
      injection h with h
      subst h
      simpa using (List.isPrefixOf_iff_prefix.mp hp).length_le
    · rw [if_neg hp] at h
      simp only [Option.map_eq_some'] at h
      obtain ⟨j, hj, rfl⟩ := h
      have := ih j hj
      simp only [List.length_cons]
      omega

theorem edamChecked_ok (orig lower marker : List Char) :
    ∀ fuel offset, offset ≤ lower.length →
      edamCheckedAux orig lower marker offset fuel =
        .ok (edamAux orig lower marker offset fuel) := by
  intro fuel
  induction fuel with
  | zero =>
    intro offset hoff
    unfold edamCheckedAux edamAux
    rw [if_neg (by omega)]
  | succ fuel ih =>
    intro offset hoff
    unfold edamCheckedAux edamAux
    rw [if_neg (by omega)]
    cases hfind : findSub (lower.drop offset) marker with
    | none => rfl
    | some found =>
      show (match extract_decimal_from orig (offset + found + marker.length) with
            | some id => Except.ok (some id)
            | none => edamCheckedAux orig lower marker (offset + found + marker.length) fuel) =
          Except.ok (match extract_decimal_from orig (offset + found + marker.length) with
            | some id => some id
            | none => edamAux orig lower marker (offset + found + marker.length) fuel)
      cases hdec : extract_decimal_from orig (offset + found + marker.length) with
      | some id => rfl
      | none =>
        have hb := findSub_bound _ _ _ hfind
        rw [List.length_drop] at hb
        exact ih (offset + found + marker.length) (by omega)

theorem foldl_checkedStep_stays (value lower id : List Char) (ms : List (List Char)) :
    ms.foldl (checkedStep value lower) (.ok (some id)) = .ok (some id) := by
  induction ms with
  | nil => rfl
  | cons m ms ih => rw [List.foldl_cons]; exact ih

theorem foldl_checkedStep_ok (value lower : List Char) (ms : List (List Char)) :
    ms.foldl (checkedStep value lower) (.ok none) =
      .ok (ms.findSome? (fun m => edamAux value lower m 0 (lower.length + 1))) := by
  induction ms with
  | nil => rfl
  | cons m ms ih =>
    rw [List.foldl_cons, List.findSome?_cons]
    have hstep : checkedStep value lower (.ok none) m =
        .ok (edamAux value lower m 0 (lower.length + 1)) := by
      unfold checkedStep
      exact edamChecked_ok value lower m _ 0 (Nat.zero_le _)
    rw [hstep]
    cases h : edamAux value lower m 0 (lower.length + 1) with
    | none => simpa using ih
    | some id => simp [foldl_checkedStep_stays]

/-- C4: Steam id extraction on the spec's vectors — the two command lines and
the `steam_app_` token map to the documented ids, a marker whose digit run is
the literal `"0"` yields no id, and every extracted digit run is a non-empty
run of decimal digits different from `"0"`. -/
theorem c4_steam_id_extraction :
    extract_steam_app_id ("SteamLaunch AppId=1903340 -- proton waitforexitandrun".toList)
        = some ("1903340".toList) ∧
    extract_steam_app_id ("gameoverlayui -pid 333322 -steampid 327614 -gameid 1903340".toList)
        = some ("1903340".toList) ∧
    extract_steam_app_id ("steam_app_730".toList) = some ("730".toList) ∧
    extract_steam_app_id ("SteamLaunch AppId=0 -- proton waitforexitandrun".toList) = none ∧
    (∀ value index run, extract_decimal_from value index = some run →
      run ≠ [] ∧ run.all Char.isDigit = true ∧ run ≠ ['0']) :=
  ⟨by decide, by decide, by decide, by decide,
    fun _ _ run h => skipSepsTakeDigits_spec _ run h⟩

/-- C4, witness: the digit-run guarantee applied at a concrete extraction. -/
theorem c4_witness :
    extract_decimal_from ("appid=: 42".toList) 6 = some ("42".toList) ∧
    ("42".toList ≠ [] ∧ ("42".toList).all Char.isDigit = true ∧ "42".toList ≠ ['0']) :=
  ⟨by decide, c4_steam_id_extraction.2.2.2.2 ("appid=: 42".toList) 6 ("42".toList) (by decide)⟩

/-- C8: the manifest/VDF/Steam-id parsers are total and cannot panic.  The
only panic-prone operation in the source is the slice `lower[offset..]` of
the marker-search loop; the checked model that signals that panic as an error
always returns `ok` and agrees with the total model.  All other parsers are
structurally total, and a line `quoted_kv` fails on contributes nothing: the
ACF field lookup degrades to `none` ("field not found") and the VDF root
extraction to the empty result. -/
theorem c8_parsers_total :
    (∀ value, extract_steam_app_id_checked value = .ok (extract_steam_app_id value)) ∧
    (∀ line key, quoted_kv line = none →
      acf_value_lines [line] key = none ∧ vdf_roots_lines [line] = []) := by
  constructor
  · intro value
    unfold extract_steam_app_id_checked extract_steam_app_id
    by_cases hv : rustTrim value = []
    · rw [if_pos hv, if_pos hv]
    · rw [if_neg hv, if_neg hv]
      simp only [extract_decimal_after_marker]
      exact foldl_checkedStep_ok _ _ _
  · intro line key h
    constructor
    · simp [acf_value_lines, h]
    · simp [vdf_roots_lines, vdfStep, h]

/-- C8, witness: the no-panic agreement at a concrete command line, and the
degradation to "not found" at a concrete quote-free line. -/
theorem c8_witness :
    extract_steam_app_id_checked ("steam_app_730 x".toList) =
      .ok (extract_steam_app_id ("steam_app_730 x".toList)) ∧
    (acf_value_lines ["no quotes here".toList] ("name".toList) = none ∧
      vdf_roots_lines ["no quotes here".toList] = []) :=
  ⟨c8_parsers_total.1 ("steam_app_730 x".toList),
    c8_parsers_total.2 ("no quotes here".toList) ("name".toList) (by decide)⟩

/-! Facts about the VDF / ACF line parsers. -/

theorem vdfStep_eq (line : List Char) (acc : List (List Char)) :
    vdfStep acc line = acc ++ (vdfPathLineValue line).toList := by
  unfold vdfStep vdfPathLineValue
  cases hq : quoted_kv line with
  | none => simp
  | some kv =>
    obtain ⟨k, v⟩ := kv
    show (if k = "path".toList then acc ++ [unescapeBackslashes v] else acc) =
      acc ++ (if k = "path".toList then some (unescapeBackslashes v) else none).toList
    by_cases hp : k = "path".toList
    · rw [if_pos hp, if_pos hp]
      rfl
    · rw [if_neg hp, if_neg hp]
      simp

theorem vdf_foldl_acc (ls : List (List Char)) (acc : List (List Char)) :
    ls.foldl vdfStep acc = acc ++ ls.filterMap vdfPathLineValue := by
  induction ls generalizing acc with
  | nil => simp
  | cons line rest ih =>
    rw [List.foldl_cons, List.filterMap_cons, vdfStep_eq line acc, ih]
    cases hv : vdfPathLineValue line with
    | none => simp
    | some b => simp

theorem quoted_kv_parts_trimmed (line k v : List Char)
    (h : quoted_kv line = some (k, v)) : rustTrim k = k ∧ rustTrim v = v := by
  unfold quoted_kv at h
  cases hs : splitOnChar '"' line with
  | nil => rw [hs] at h; cases h
  | cons p0 r0 =>
    rw [hs] at h
    cases r0 with
    | nil => cases h
    | cons p1 r1 =>
      cases r1 with
      | nil => cases h
      | cons p2 r2 =>
        cases r2 with
        | nil => cases h
        | cons p3 r3 =>
          have h2 : (if rustTrim p1 = [] then none
              else some (rustTrim p1, rustTrim p3)) = some (k, v) := h
          by_cases hk : rustTrim p1 = []
          · rw [if_pos hk] at h2; cases h2
          · rw [if_neg hk] at h2
            injection h2 with h2
            injection h2 with hk1 hv1
            subst hk1
            subst hv1
            exact ⟨trimEnds_idem _ _, trimEnds_idem _ _⟩

theorem eqIgnoreAsciiCase_iff_map (a b : List Char) :
    eqIgnoreAsciiCase a b = true ↔ a.map asciiToLower = b.map asciiToLower := by
  induction a generalizing b with
  | nil => cases b <;> simp [eqIgnoreAsciiCase]
  | cons x xs ih =>
    cases b with
    | nil => simp [eqIgnoreAsciiCase]
    | cons y ys => simp [eqIgnoreAsciiCase, Bool.and_eq_true, beq_iff_eq, ih]

theorem acf_value_lines_congr (ls : List (List Char)) (k1 k2 : List Char)
    (h : eqIgnoreAsciiCase k1 k2 = true) :
    acf_value_lines ls k1 = acf_value_lines ls k2 := by
  have hmap := (eqIgnoreAsciiCase_iff_map k1 k2).mp h
  induction ls with
  | nil => rfl
  | cons line rest ih =>
    unfold acf_value_lines
    cases hq : quoted_kv line with
    | none => exact ih
    | some kv =>
      obtain ⟨k, v⟩ := kv
      have hcond : eqIgnoreAsciiCase k k1 = eqIgnoreAsciiCase k k2 := by
        by_cases h1 : eqIgnoreAsciiCase k k1 = true
        · have h2 : eqIgnoreAsciiCase k k2 = true :=
            (eqIgnoreAsciiCase_iff_map k k2).mpr
              (((eqIgnoreAsciiCase_iff_map k k1).mp h1).trans hmap)
          rw [h1, h2]
        · have h2 : ¬eqIgnoreAsciiCase k k2 = true := fun hc =>
            h1 ((eqIgnoreAsciiCase_iff_map k k1).mpr
              (((eqIgnoreAsciiCase_iff_map k k2).mp hc).trans hmap.symm))
          rw [Bool.not_eq_true] at h1 h2
          rw [h1, h2]
      show (if eqIgnoreAsciiCase k k1 = true then some v else acf_value_lines rest k1) =
        (if eqIgnoreAsciiCase k k2 = true then some v else acf_value_lines rest k2)
      rw [hcond]
      by_cases hk : eqIgnoreAsciiCase k k2 = true
      · rw [if_pos hk, if_pos hk]
      · rw [if_neg hk, if_neg hk]; exact ih

theorem acf_value_lines_trimmed (ls : List (List Char)) (key v : List Char)
    (h : acf_value_lines ls key = some v) : rustTrim v = v := by
  induction ls with
  | nil => cases h
  | cons line rest ih =>
    unfold acf_value_lines at h
    cases hq : quoted_kv line with
    | none => rw [hq] at h; exact ih h
    | some kv =>
      obtain ⟨k, v0⟩ := kv
      rw [hq] at h
      have h2 : (if eqIgnoreAsciiCase k key = true then some v0
          else acf_value_lines rest key) = some v := h
      by_cases hk : eqIgnoreAsciiCase k key = true
      · rw [if_pos hk] at h2
        injection h2 with h2
        subst h2
        exact (quoted_kv_parts_trimmed line k v0 hq).2
      · rw [if_neg hk] at h2; exact ih h2

/-- C5, counterexample: duplicate `"path"` lines are NOT removed by
`steam_library_roots_from_vdf` — two identical path lines come back twice
(deduplication happens later, in `steam_library_roots`). -/
theorem c5_counterexample :
    steam_library_roots_from_vdf ("\"path\" \"/a\"\n\"path\" \"/a\"".toList) =
      ["/a".toList, "/a".toList] ∧
    ¬(steam_library_roots_from_vdf ("\"path\" \"/a\"\n\"path\" \"/a\"".toList)).Nodup := by
  constructor
  · decide
  · decide

/-- C5, amended: for every VDF text, library-root extraction returns exactly
the backslash-unescaped value of every quoted `"path"` key/value line, in
order of appearance; duplicates are retained (the caller
`steam_library_roots` removes them after filtering existing directories). -/
theorem c5_vdf_paths (content : List Char) :
    steam_library_roots_from_vdf content = (rustLines content).filterMap vdfPathLineValue := by
  unfold steam_library_roots_from_vdf vdf_roots_lines
  simpa using vdf_foldl_acc (rustLines content) []

/-- C5, witness: the amended extraction at a concrete two-line VDF fragment. -/
theorem c5_witness :
    steam_library_roots_from_vdf
        ("\"path\" \"/home/u/.local/share/Steam\"\n\"path\" \"D:\\\\Games\"".toList) =
      (rustLines
        ("\"path\" \"/home/u/.local/share/Steam\"\n\"path\" \"D:\\\\Games\"".toList)).filterMap
        vdfPathLineValue :=
  c5_vdf_paths ("\"path\" \"/home/u/.local/share/Steam\"\n\"path\" \"D:\\\\Games\"".toList)

/-- C10: ACF field extraction matches keys ignoring ASCII case (lookups for
case-equal keys agree, and a matching first line is returned regardless of
case), returns the value of the first matching line, and every returned value
is whitespace-trimmed. -/
theorem c10_acf_field_extraction :
    (∀ ls k1 k2, eqIgnoreAsciiCase k1 k2 = true →
        acf_value_lines ls k1 = acf_value_lines ls k2) ∧
    (∀ line ls key k v, quoted_kv line = some (k, v) → eqIgnoreAsciiCase k key = true →
        acf_value_lines (line :: ls) key = some v) ∧
    (∀ ls key v, acf_value_lines ls key = some v → rustTrim v = v) := by
  refine ⟨acf_value_lines_congr, ?_, acf_value_lines_trimmed⟩
  intro line ls key k v hq hk
  unfold acf_value_lines
  rw [hq]
  show (if eqIgnoreAsciiCase k key = true then some v else acf_value_lines ls key) = some v
  rw [if_pos hk]

/-- C10, witness: a lookup for `name` matches a first line whose quoted key is
`NAME`, ahead of a later exact-case line, and returns its trimmed value. -/
theorem c10_witness :
    acf_value_lines ["\"NAME\"  \" Hello \"".toList, "\"name\" \"b\"".toList]
        ("name".toList) = some ("Hello".toList) ∧
    acf_value_lines ["\"NAME\" \"x\"".toList] ("name".toList) =
      acf_value_lines ["\"NAME\" \"x\"".toList] ("NAME".toList) ∧
    rustTrim ("Hello".toList) = "Hello".toList :=
  ⟨c10_acf_field_extraction.2.1 ("\"NAME\"  \" Hello \"".toList) ["\"name\" \"b\"".toList]
      ("name".toList) ("NAME".toList) ("Hello".toList) (by decide) (by decide),
    c10_acf_field_extraction.1 ["\"NAME\" \"x\"".toList] ("name".toList) ("NAME".toList)
      (by decide),
    c10_acf_field_extraction.2.2 ["\"NAME\"  \" Hello \"".toList] ("name".toList)
      ("Hello".toList) (by decide)⟩

/-- C7: whenever two entries are tied on the selected primary column, the
comparator orders them by the fixed tiebreak RAM descending, then CPU
descending, then pid ascending — for every selected column and direction. -/
theorem c7_sort_tiebreaks (st : SortState) (a b : ProcessEntry)
    (h : primaryOrd st.column a b = Ordering.eq) :
    entryCmp st a b = specTiebreak a b := by
  obtain ⟨col, dir⟩ := st
  cases dir
  · show ((((primaryOrd col a b).then (cmpNat b.rss_bytes a.rss_bytes)).then
        (cmpQ b.cpu_percent a.cpu_percent)).then (cmpNat a.pid b.pid)) = specTiebreak a b
    rw [h]
    rfl
  · show (((((primaryOrd col a b).swap).then (cmpNat b.rss_bytes a.rss_bytes)).then
        (cmpQ b.cpu_percent a.cpu_percent)).then (cmpNat a.pid b.pid)) = specTiebreak a b
    rw [h]
    rfl

/-- C7, witness: two entries tied on CPU (the selected descending column) are
ordered by the fixed tiebreak. -/
theorem c7_witness :
    primaryOrd SortColumn.cpu
        ⟨"a".toList, "A".toList, "A".toList, 9, 5, 100, 2⟩
        ⟨"b".toList, "B".toList, "B".toList, 3, 5, 200, 2⟩ = Ordering.eq ∧
    entryCmp ⟨SortColumn.cpu, SortDirection.desc⟩
        ⟨"a".toList, "A".toList, "A".toList, 9, 5, 100, 2⟩
        ⟨"b".toList, "B".toList, "B".toList, 3, 5, 200, 2⟩ =
      specTiebreak
        ⟨"a".toList, "A".toList, "A".toList, 9, 5, 100, 2⟩
        ⟨"b".toList, "B".toList, "B".toList, 3, 5, 200, 2⟩ :=
  ⟨by decide,
    c7_sort_tiebreaks ⟨SortColumn.cpu, SortDirection.desc⟩
      ⟨"a".toList, "A".toList, "A".toList, 9, 5, 100, 2⟩
      ⟨"b".toList, "B".toList, "B".toList, 3, 5, 200, 2⟩ (by decide)⟩

/-! Facts about the aggregation loop. -/

theorem rustClamp_mem (x lo hi : ℚ) (hlh : lo ≤ hi) :
    lo ≤ rustClamp x lo hi ∧ rustClamp x lo hi ≤ hi := by
  unfold rustClamp
  by_cases h1 : x < lo
  · rw [if_pos h1]
    exact ⟨le_refl _, hlh⟩
  · rw [if_neg h1]
    by_cases h2 : x > hi
    · rw [if_pos h2]
      exact ⟨hlh, le_refl _⟩
    · rw [if_neg h2]
      exact ⟨not_lt.mp h1, not_lt.mp h2⟩

theorem updateGroups_keys (cores : ℚ) (appId nm : List Char) (p : ProcSample)
    (gs : List (List Char × Aggregate)) :
    (updateGroups cores appId nm p gs).map Prod.fst =
      if appId ∈ gs.map Prod.fst then gs.map Prod.fst
      else gs.map Prod.fst ++ [appId] := by
  induction gs with
  | nil => simp [updateGroups]
  | cons kv rest ih =>
    obtain ⟨k, a⟩ := kv
    unfold updateGroups
    by_cases hk : k = appId
    · subst hk
      rw [if_pos rfl]
      simp only [List.map_cons]
      rw [if_pos (List.mem_cons_self _ _)]
    · rw [if_neg hk]
      simp only [List.map_cons]
      rw [ih]
      by_cases hmem : appId ∈ rest.map Prod.fst
      · rw [if_pos hmem, if_pos (List.mem_cons_of_mem _ hmem)]
      · rw [if_neg hmem, if_neg ?_]
        · simp
        · intro hc
          rcases List.mem_cons.mp hc with h1 | h1
          · exact hk h1.symm
          · exact hmem h1

theorem updateGroups_nodup (cores : ℚ) (appId nm : List Char) (p : ProcSample)
    (gs : List (List Char × Aggregate)) (h : (gs.map Prod.fst).Nodup) :
    ((updateGroups cores appId nm p gs).map Prod.fst).Nodup := by
  rw [updateGroups_keys]
  by_cases hmem : appId ∈ gs.map Prod.fst
  · rw [if_pos hmem]
    exact h
  · rw [if_neg hmem]
    simp [List.nodup_append, h, hmem]

theorem buildGroups_nodup (cores : ℚ) (procs : List ResolvedProcess) :
    ((buildGroups cores procs).map Prod.fst).Nodup := by
  suffices h : ∀ gs : List (List Char × Aggregate), (gs.map Prod.fst).Nodup →
      ((procs.foldl (fun gs rp => updateGroups cores rp.app_id rp.app_name rp.sample gs)
          gs).map Prod.fst).Nodup by
    exact h [] (by simp)
  induction procs with
  | nil => intro gs hgs; exact hgs
  | cons rp rest ih =>
    intro gs hgs
    rw [List.foldl_cons]
    exact ih _ (updateGroups_nodup _ _ _ _ _ hgs)

/-- C1: after every refresh tick — for every CPU count and every outcome of
eligibility filtering and identity resolution — every produced entry has
`cpu_percent` in `[0, 100]` and `threads ≥ 1`, and the application ids of the
produced entries are pairwise distinct. -/
theorem c1_aggregation_invariant (nCpus : Nat) (procs : List ResolvedProcess) :
    (∀ e ∈ refresh_process_entries nCpus procs,
        0 ≤ e.cpu_percent ∧ e.cpu_percent ≤ 100 ∧ 1 ≤ e.threads) ∧
    ((refresh_process_entries nCpus procs).map ProcessEntry.app_id).Nodup := by
  constructor
  · intro e he
    unfold refresh_process_entries at he
    rw [List.mem_map] at he
    obtain ⟨kv, _, rfl⟩ := he
    have hc := rustClamp_mem kv.2.cpu_percent 0 100 (by norm_num)
    exact ⟨hc.1, hc.2, le_max_right _ _⟩
  · unfold refresh_process_entries
    rw [List.map_map]
    have hcomp : (ProcessEntry.app_id ∘ finalizeEntry) =
        (Prod.fst : List Char × Aggregate → List Char) := by
      funext kv
      rfl
    rw [hcomp]
    exact buildGroups_nodup _ _

/-- C1, witness: the invariant at a concrete tick with one resolved process
whose raw CPU reading exceeds 100 percent of one core. -/
theorem c1_witness :
    (0 ≤ (ProcessEntry.mk ("a".toList) ("A".toList) ("A".toList) 5 100 10 1).cpu_percent ∧
      (ProcessEntry.mk ("a".toList) ("A".toList) ("A".toList) 5 100 10 1).cpu_percent ≤ 100 ∧
      1 ≤ (ProcessEntry.mk ("a".toList) ("A".toList) ("A".toList) 5 100 10 1).threads) ∧
    ((refresh_process_entries 1
        [⟨"a".toList, "A".toList, ⟨5, 250, 10, none⟩⟩]).map ProcessEntry.app_id).Nodup :=
  ⟨(c1_aggregation_invariant 1 [⟨"a".toList, "A".toList, ⟨5, 250, 10, none⟩⟩]).1
      (ProcessEntry.mk ("a".toList) ("A".toList) ("A".toList) 5 100 10 1)
      (by norm_num [refresh_process_entries, buildGroups, updateGroups, applyProcess,
        freshAggregate, finalizeEntry, rustClamp]),
    (c1_aggregation_invariant 1 [⟨"a".toList, "A".toList, ⟨5, 250, 10, none⟩⟩]).2⟩

/-! Facts about the restart trace. -/

theorem getLast?_cons_of_isSome {α} (a : α) (l : List α) (x : α)
    (h : l.getLast? = some x) : (a :: l).getLast? = some x := by
  cases l with
  | nil => cases h
  | cons b bs =>
    rw [List.getLast?_cons_cons]
    exact h

theorem waitTrace_polls (obs : Nat → Bool) :
    ∀ budget i,
      (∀ e ∈ waitTrace obs budget i, ∃ r, e = RestartEvent.poll r) ∧
      ((waitTrace obs budget i).getLast? = some (RestartEvent.poll false) ∨
        (waitTrace obs budget i).length = budget) := by
  intro budget
  induction budget with
  | zero =>
    intro i
    exact ⟨by simp [waitTrace], Or.inr rfl⟩
  | succ b ih =>
    intro i
    unfold waitTrace
    by_cases hr : obs i = true
    · rw [hr]
      rw [if_pos rfl]
      constructor
      · intro e he
        rcases List.mem_cons.mp he with rfl | h2
        · exact ⟨true, rfl⟩
        · exact (ih (i + 1)).1 e h2
      · rcases (ih (i + 1)).2 with hend | hlen
        · exact Or.inl (getLast?_cons_of_isSome _ _ _ hend)
        · right
          rw [List.length_cons, hlen]
    · rw [Bool.not_eq_true] at hr
      rw [hr]
      rw [if_neg (by simp)]
      constructor
      · intro e he
        rcases List.mem_cons.mp he with rfl | h2
        · exact ⟨false, rfl⟩
        · cases h2
      · exact Or.inl rfl

/-- C2, counterexample: when the application survives the whole TERM poll
window, the first relaunch attempt happens while the last poll still observed
the id running and before any KILL — contradicting the claim that a relaunch
never occurs while the id is observed running except after the escalation
kill. -/
theorem c2_counterexample :
    (restartTrace stuckEnv).get? 2 = some (RestartEvent.launchAttempt true) ∧
    RestartEvent.sigKill ∉ (restartTrace stuckEnv).take 2 ∧
    lastPollBefore (restartTrace stuckEnv) 2 = some true := by
  refine ⟨by decide, by decide, by decide⟩

/-- C2, amended: in every restart run, the trace starts with TERM, and a
relaunch is attempted only after a poll phase that ends either with an
observation that the id is no longer running or with the real-time poll
budget exhausted (timeout) — in the latter case the relaunch may happen while
the id is still observed running; the second relaunch attempt happens only
after the escalation KILL and its own such poll phase. -/
theorem c2_restart_sequencing_amended (env : RestartEnv) :
    ∃ w1 rest,
      restartTrace env =
        RestartEvent.sigTerm :: w1 ++ RestartEvent.launchAttempt env.launchOk :: rest ∧
      (∀ e ∈ w1, ∃ r, e = RestartEvent.poll r) ∧
      (w1.getLast? = some (RestartEvent.poll false) ∨ w1.length = env.budgetTerm) ∧
      (rest = [] ∨
        ∃ w2,
          rest = RestartEvent.sigKill :: w2 ++ [RestartEvent.launchAttempt env.launch2Ok] ∧
          (∀ e ∈ w2, ∃ r, e = RestartEvent.poll r) ∧
          (w2.getLast? = some (RestartEvent.poll false) ∨ w2.length = env.budgetKill)) := by
  refine ⟨waitTrace env.runningAfterTerm env.budgetTerm 0,
    (if env.launchOk then []
     else RestartEvent.sigKill :: waitTrace env.runningAfterKill env.budgetKill 0 ++
       [RestartEvent.launchAttempt env.launch2Ok]),
    rfl, (waitTrace_polls _ _ _).1, (waitTrace_polls _ _ _).2, ?_⟩
  by_cases hl : env.launchOk = true
  · rw [if_pos hl]
    exact Or.inl rfl
  · rw [if_neg hl]
    exact Or.inr ⟨waitTrace env.runningAfterKill env.budgetKill 0, rfl,
      (waitTrace_polls _ _ _).1, (waitTrace_polls _ _ _).2⟩

/-- C2, witness: the amended sequencing at the concrete always-running
environment. -/
theorem c2_witness :
    ∃ w1 rest,
      restartTrace stuckEnv =
        RestartEvent.sigTerm :: w1 ++ RestartEvent.launchAttempt stuckEnv.launchOk :: rest ∧
      (∀ e ∈ w1, ∃ r, e = RestartEvent.poll r) ∧
      (w1.getLast? = some (RestartEvent.poll false) ∨ w1.length = stuckEnv.budgetTerm) ∧
      (rest = [] ∨
        ∃ w2,
          rest = RestartEvent.sigKill :: w2 ++ [RestartEvent.launchAttempt stuckEnv.launch2Ok] ∧
          (∀ e ∈ w2, ∃ r, e = RestartEvent.poll r) ∧
          (w2.getLast? = some (RestartEvent.poll false) ∨ w2.length = stuckEnv.budgetKill)) :=
  c2_restart_sequencing_amended stuckEnv

/-! Facts about the Steam parent-chain walk. -/

theorem walkAux_spec (table : Nat → Option ProcRec) :
    ∀ fuel (visited : List Nat) (parent : Option Nat),
      (walkAux table fuel visited parent).2.length ≤ fuel ∧
      (walkAux table fuel visited parent).2.Nodup ∧
      (∀ x ∈ (walkAux table fuel visited parent).2, x ∉ visited) := by
  intro fuel
  induction fuel with
  | zero =>
    intro visited parent
    cases parent with
    | none => exact ⟨by simp [walkAux], by simp [walkAux], by simp [walkAux]⟩
    | some p => exact ⟨by simp [walkAux], by simp [walkAux], by simp [walkAux]⟩
  | succ f ih =>
    intro visited parent
    cases parent with
    | none => exact ⟨by simp [walkAux], by simp [walkAux], by simp [walkAux]⟩
    | some ppid =>
      have heq : walkAux table (f + 1) visited (some ppid) =
          if ppid ∈ visited then (none, [])
          else
            match table ppid with
            | none => (none, [])
            | some pr =>
              match pr.steamId with
              | some id => (some id, [ppid])
              | none =>
                ((walkAux table f (ppid :: visited) pr.parent).1,
                  ppid :: (walkAux table f (ppid :: visited) pr.parent).2) := rfl
      rw [heq]
      by_cases hv : ppid ∈ visited
      · rw [if_pos hv]
        exact ⟨by simp, by simp, by simp⟩
      · rw [if_neg hv]
        split
        · exact ⟨by simp, by simp, by simp⟩
        · next pr ht =>
          split
          · next id hid =>
            refine ⟨by simp, by simp, ?_⟩
            intro x hx
            rcases List.mem_singleton.mp hx with rfl
            exact hv
          · next hid =>
            obtain ⟨hlen, hnd, hdisj⟩ := ih (ppid :: visited) pr.parent
            refine ⟨?_, ?_, ?_⟩
            · simp only [List.length_cons]
              omega
            · rw [List.nodup_cons]
              refine ⟨fun hc => hdisj ppid hc (List.mem_cons_self _ _), hnd⟩
            · intro x hx
              rcases List.mem_cons.mp hx with rfl | hx2
              · exact hv
              · exact fun hxv => hdisj x hx2 (List.mem_cons_of_mem _ hxv)

/-- C9: for every process table — cycles in the parent relation included —
the Steam resolution walk examines at most 12 ancestors, never examines the
same pid twice (so it terminates), and a process that itself yields an id is
answered directly without walking. -/
theorem c9_steam_walk_bounded (table : Nat → Option ProcRec) (pr : ProcRec) :
    (steamWalkTrace table pr).length ≤ 12 ∧
    (steamWalkTrace table pr).Nodup ∧
    (∀ id, pr.steamId = some id → steam_app_id_for_process table pr = some id) := by
  refine ⟨?_, ?_, ?_⟩
  · unfold steamWalkTrace
    cases pr.steamId with
    | some id => simp
    | none => exact (walkAux_spec table 12 [] pr.parent).1
  · unfold steamWalkTrace
    cases pr.steamId with
    | some id => simp
    | none => exact (walkAux_spec table 12 [] pr.parent).2.1
  · intro id h
    unfold steam_app_id_for_process
    rw [h]

/-- C9, witness: the bound applied to a concrete table whose parent relation
is the three-cycle `0 → 1 → 2 → 0`, starting from a process with no id of its
own, together with the direct answer on a process that has an id. -/
theorem c9_witness :
    (steamWalkTrace (fun n => if n < 3 then some ⟨some ((n + 1) % 3), none⟩ else none)
        ⟨some 0, none⟩).length ≤ 12 ∧
    (steamWalkTrace (fun n => if n < 3 then some ⟨some ((n + 1) % 3), none⟩ else none)
        ⟨some 0, none⟩).Nodup ∧
    steam_app_id_for_process (fun _ => none) ⟨none, some ("730".toList)⟩ =
      some ("730".toList) :=
  ⟨(c9_steam_walk_bounded (fun n => if n < 3 then some ⟨some ((n + 1) % 3), none⟩ else none)
      ⟨some 0, none⟩).1,
    (c9_steam_walk_bounded (fun n => if n < 3 then some ⟨some ((n + 1) % 3), none⟩ else none)
      ⟨some 0, none⟩).2.1,
    (c9_steam_walk_bounded (fun _ => none) ⟨none, some ("730".toList)⟩).2.2 ("730".toList) rfl⟩

/-- C6, counterexample: the alias does not strip a suffix only once — on the
normalized key `"x-beta-beta"` the source's `trim_end_matches` removes BOTH
trailing `-beta` repetitions, producing alias `"x"`, while the once-each rule
of the claim would produce `"x-beta"`. -/
theorem c6_counterexample :
    exec_candidate_keys ("x-beta-beta".toList) = ["x-beta-beta".toList, "x".toList] ∧
    execCandidateKeysOnceSpec ("x-beta-beta".toList) =
      ["x-beta-beta".toList, "x-beta".toList] ∧
    exec_candidate_keys ("x-beta-beta".toList) ≠
      execCandidateKeysOnceSpec ("x-beta-beta".toList) := by
  refine ⟨by decide, by decide, by decide⟩

/-- C6, amended: for every input, `exec_candidate_keys` yields at most two
keys: the normalized primary key, plus — when non-empty and distinct — the
alias obtained by greedily stripping ALL trailing repetitions of each known
channel suffix and then each role suffix, in that order. -/
theorem c6_exec_candidate_keys_amended (value : List Char) :
    (exec_candidate_keys value).length ≤ 2 ∧
    (exec_candidate_keys value = [] ∨
      ∃ p, normalize_exec_key (execTokenOf value) = some p ∧
        (exec_candidate_keys value = [p] ∨
          (exec_candidate_keys value = [p, greedyAlias p] ∧
            greedyAlias p ≠ p ∧ greedyAlias p ≠ []))) := by
  cases hn : normalize_exec_key (execTokenOf value) with
  | none =>
    have heq : exec_candidate_keys value = [] := by
      unfold exec_candidate_keys
      rw [hn]
    rw [heq]
    exact ⟨by simp, Or.inl rfl⟩
  | some p =>
    have heq : exec_candidate_keys value =
        if greedyAlias p ≠ [] ∧ greedyAlias p ≠ p then [p, greedyAlias p] else [p] := by
      unfold exec_candidate_keys
      rw [hn]
    rw [heq]
    split
    · next ha => exact ⟨by simp, Or.inr ⟨p, rfl, Or.inr ⟨rfl, ha.2, ha.1⟩⟩⟩
    · next ha => exact ⟨by simp, Or.inr ⟨p, rfl, Or.inl rfl⟩⟩

/-- C6, witness: the amended key-set shape at the concrete input
`"firefox-beta"`, whose alias strips the single `-beta` suffix. -/
theorem c6_witness :
    (exec_candidate_keys ("firefox-beta".toList)).length ≤ 2 ∧
    (exec_candidate_keys ("firefox-beta".toList) = [] ∨
      ∃ p, normalize_exec_key (execTokenOf ("firefox-beta".toList)) = some p ∧
        (exec_candidate_keys ("firefox-beta".toList) = [p] ∨
          (exec_candidate_keys ("firefox-beta".toList) = [p, greedyAlias p] ∧
            greedyAlias p ≠ p ∧ greedyAlias p ≠ []))) :=
  c6_exec_candidate_keys_amended ("firefox-beta".toList)

end CTM
